import Mathlib

/-!
Verification of the chatcode job-orchestration engine.

This file gives a shallow embedding, in Lean 4, of the parts of the Go
repository `chatcode` that the checked claims are about:

* `internal/domain/types.go` — `SessionKey`, `Job`, `StreamEvent`,
  `OutboundMessage`, job statuses;
* `internal/security/policy.go` — `New`, `Policy.Validate`,
  `Policy.ValidateExecutor`, `Policy.ValidateWorkdir` (together with a
  faithful model of Go's `path/filepath.Clean` for slash-separated paths);
* `internal/stream` (batcher) — `Batcher.OnEvent` / `Batcher.sendLocked`;
* the Runner — `Runner.RunJob`'s event pipeline (sequence numbers, the
  synthetic terminal event, the error result);
* `internal/queue/dispatcher.go` — modelled as a labelled transition
  system over queues / running workers / the counting semaphore;
* `internal/service/orchestrator.go` — `enqueueJob`'s effect sequence and
  `runJob`'s terminal-status decision;
* `internal/session/manager.go` and the store's permission-mode
  read/modify/write cycle;
* `internal/executor/codex.go` — the JSON event rewriting pipeline,
  including a small executable JSON parser standing in for
  `encoding/json.Unmarshal` on the struct shapes the adapter decodes;
* the Telegram transport's `Bot.Send` parse-mode selection.

Pure functions of the Go source become Lean functions; stateful code
(store, session manager, dispatcher) becomes explicit state passing or a
step relation.  Byte strings that Go slices by byte (`len`, `msg[:n]`)
are modelled as `List UInt8`; Go `string` values that are only compared,
concatenated and scanned are modelled as Lean `String` via their
character lists (the inputs involved are ASCII, where Go bytes and
characters coincide).  Wall-clock timestamps (`ts`, `created_at`,
`updated_at`, `expires_at`) do not influence any checked claim and are
omitted from the records.
-/

namespace Chatcode

/-! ## Small string helpers (models of Go `strings` functions) -/

/-- Whitespace recognised by Go's `unicode.IsSpace` in the ASCII range
(plus NEL and NBSP, which `strings.TrimSpace` also strips). -/
def isSpaceChar (c : Char) : Bool :=
  c = ' ' || c = '\t' || c = '\n' || c = Char.ofNat 11 || c = Char.ofNat 12 ||
  c = '\r' || c = Char.ofNat 0x85 || c = Char.ofNat 0xA0

/-- Model of Go `strings.TrimSpace`. -/
def trimSpace (s : String) : String :=
  String.mk (((s.data.dropWhile isSpaceChar).reverse.dropWhile isSpaceChar).reverse)

/-- The test `hasPref pre l` is true when `pre` is an initial segment of `l`
(model of Go `strings.HasPrefix` on character lists). -/
def hasPref : List Char → List Char → Bool
  | [], _ => true
  | _ :: _, [] => false
  | p :: ps, c :: cs => p = c && hasPref ps cs

/-- Model of Go `strings.HasPrefix`. -/
def strHasPref (s pre : String) : Bool :=
  hasPref pre.data s.data

/-- The test `hasSubstr pat l` is true when `pat` occurs contiguously inside `l`
(model of Go `strings.Contains` on character lists). -/
def hasSubstr (pat : List Char) : List Char → Bool
  | [] => pat.isEmpty
  | c :: rest => hasPref pat (c :: rest) || hasSubstr pat rest

/-- Model of Go `strings.Contains`. -/
def strContains (s pat : String) : Bool :=
  hasSubstr pat.data s.data

/-- Model of Go `strings.HasSuffix`. -/
def strHasSuffix (s suf : String) : Bool :=
  hasPref suf.data.reverse s.data.reverse

/-- Split a character list at a separator character; like Go
`strings.Split`, it yields empty segments for leading, trailing and
repeated separators. -/
def splitSep (sep : Char) : List Char → List (List Char)
  | [] => [[]]
  | c :: cs =>
    match splitSep sep cs with
    | [] => [[]]
    | g :: gs => if c = sep then [] :: g :: gs else (c :: g) :: gs

/-- Join segments with a separator character (model of Go
`strings.Join` / `path` reassembly). -/
def joinSep (sep : Char) : List (List Char) → List Char
  | [] => []
  | [e] => e
  | e :: es => e ++ sep :: joinSep sep es

/-! ## Domain types (`internal/domain/types.go`)

`Job.PermissionMode` and `StreamEvent.Format` are referenced throughout
the orchestrator and the executor adapters; the copy of `types.go`
under `src/` is an earlier revision that predates those two fields, so
they are included here as the rest of the source requires. -/

inductive JobStatus where
  | pending
  | running
  | done
  | failed
  | stopped
deriving DecidableEq, Repr

structure SessionKey where
  platform : String
  chatID : String
  threadID : String
deriving DecidableEq, Repr

/-- Model of `SessionKey.String` (types.go lines 21–26):
`platform:chat_id` when the thread id is empty, else
`platform:chat_id:thread_id`. -/
def SessionKey.str (k : SessionKey) : String :=
  if k.threadID = "" then k.platform ++ ":" ++ k.chatID
  else k.platform ++ ":" ++ k.chatID ++ ":" ++ k.threadID

structure Job where
  id : String
  sessionKey : SessionKey
  executor : String
  session : String
  prompt : String
  workdir : String
  status : JobStatus
  permissionMode : String
  errorMessage : String
deriving DecidableEq, Repr

/-- Stream events; `seq` is the Go `int64` counter (always positive in a
run, so a `Nat` here), `exitCode` is the nullable `*int` column. -/
structure StreamEvent where
  jobID : String
  seq : Nat
  chunk : String
  isFinal : Bool
  stream : String
  exitCode : Option Nat
  format : String
deriving DecidableEq, Repr

/-! ## Go `path/filepath.Clean` (unix rules)

Element-wise model of the lexical cleaning algorithm: split on `/`,
drop empty and `.` elements, let `..` pop the previous element (except
past the root, or when unrooted and there is nothing left to pop, where
it is kept), and reassemble; the empty result becomes `.`. -/

def cleanStep (rooted : Bool) (out : List (List Char)) (e : List Char) :
    List (List Char) :=
  if e = [] || e = ['.'] then out
  else if e = ['.', '.'] then
    if out ≠ [] ∧ out.getLast? ≠ some ['.', '.'] then out.dropLast
    else if rooted then out
    else out ++ [['.', '.']]
  else out ++ [e]

/-- Model of Go `filepath.Clean` for slash-separated paths. -/
def filepathClean (s : String) : String :=
  match s.data with
  | [] => "."
  | c :: cs =>
    let rooted := c = '/'
    let out := (splitSep '/' (c :: cs)).foldl (cleanStep rooted) []
    let body := joinSep '/' out
    let res := if rooted then '/' :: body else body
    if res = [] then "." else String.mk res

/-! ## Security policy (`internal/security/policy.go`) -/

structure Policy where
  allowlist : List String
  roots : List String
deriving Repr

/-- Model of `security.New` (policy.go lines 17–30): trim each allowlist
entry; drop empty roots and `filepath.Clean` the rest. -/
def Policy.new (allowlist roots : List String) : Policy :=
  { allowlist := allowlist.map trimSpace
    roots := (roots.filter (fun r => r ≠ "")).map filepathClean }

/-- Model of `Policy.ValidateExecutor`; `some msg` is the returned
error, `none` is success.  Go's `%q` is modelled as plain
double-quoting (the names involved need no escaping). -/
def Policy.validateExecutor (p : Policy) (name : String) : Option String :=
  if p.allowlist.contains name then none
  else some ("executor \"" ++ name ++ "\" is not allowed")

/-- Model of `Policy.ValidateWorkdir` (policy.go lines 49–60): reject
empty; clean the path; accept iff it equals a configured root or has
`root + "/"` as a prefix. -/
def Policy.validateWorkdir (p : Policy) (workdir : String) : Option String :=
  if workdir = "" then some "workdir cannot be empty"
  else
    let wd := filepathClean workdir
    if p.roots.any (fun root => wd == root || hasPref (root ++ "/").data wd.data)
    then none
    else some ("workdir \"" ++ wd ++ "\" is outside allowed roots")

/-- Model of `Policy.Validate` (policy.go lines 32–40): executor check
first, then workdir check. -/
def Policy.validate (p : Policy) (job : Job) : Option String :=
  match p.validateExecutor job.executor with
  | some e => some e
  | none => p.validateWorkdir job.workdir

/-! ## Runner event pipeline (`Runner.RunJob`)

`RunJob` starts the child, then two concurrent line readers pump stdout
and stderr; every line takes the next value of one shared atomic
counter as its `seq` and is delivered to the sink with a trailing
newline.  After `cmd.Wait()` *and* both readers have finished
(`wg.Wait()`), one synthetic terminal event is emitted with the next
`seq`, stream `meta`, `IsFinal` set, and exit code `0` when `Wait`
succeeded and `1` otherwise.  The child's observable behaviour is a
pair of line lists; a concrete run is any interleaving of the two
tagged streams (per-stream order is preserved by each reader; the
cross-stream order is a scheduler choice). -/

/-- The relation `Interleaving xs ys zs` holds when `zs` is a merge of `xs` and `ys` that keeps
the relative order of each input list. -/
inductive Interleaving : List α → List α → List α → Prop where
  | nil : Interleaving [] [] []
  | left {x : α} {xs ys zs} :
      Interleaving xs ys zs → Interleaving (x :: xs) ys (x :: zs)
  | right {y : α} {xs ys zs} :
      Interleaving xs ys zs → Interleaving xs (y :: ys) (y :: zs)

/-- Tag every line of one stream with its stream name. -/
def tagStream (stream : String) (ls : List String) : List (String × String) :=
  ls.map (fun l => (stream, l))

/-- Pair every element with its index, starting at `k` (the runner's
shared counter value before the element's increment). -/
def enumFromN (k : Nat) : List α → List (Nat × α)
  | [] => []
  | x :: xs => (k, x) :: enumFromN (k + 1) xs

/-- One line event as built in the reader loop of `RunJob`:
`seq = idx + 1`, `chunk = line + "\n"`. -/
def runnerLineEvent (jobID : String) (idx : Nat) (sl : String × String) :
    StreamEvent :=
  { jobID := jobID, seq := idx + 1, chunk := sl.2 ++ "\n", isFinal := false
    stream := sl.1, exitCode := none, format := "" }

/-- The synthetic terminal event of `RunJob` after `n` line events. -/
def runnerFinalEvent (jobID : String) (n : Nat) (waitOk : Bool) : StreamEvent :=
  { jobID := jobID, seq := n + 1, chunk := "", isFinal := true
    stream := "meta", exitCode := some (if waitOk then 0 else 1), format := "" }

/-- The full event sequence one run of `RunJob` delivers to the sink, in
seq-assignment order, for a given merged line order `lines` and `Wait`
outcome `waitOk`. -/
def runnerEvents (jobID : String) (lines : List (String × String))
    (waitOk : Bool) : List StreamEvent :=
  ((enumFromN 0 lines).map (fun p => runnerLineEvent jobID p.1 p.2))
    ++ [runnerFinalEvent jobID lines.length waitOk]

/-- Go's `cmd.Wait()` returns an `*exec.ExitError` exactly when the child's
exit code is non-zero; `RunJob` then returns a wrapped error. -/
def waitFails (exitCode : Nat) : Bool :=
  exitCode != 0

/-- The runner's `RunJob` returns an error iff `Wait` failed (runner.go lines
143–146). -/
def runnerReturnsErr (waitOk : Bool) : Bool :=
  !waitOk

/-- Model of `Orchestrator.runJob`'s terminal status decision (orchestrator.go
lines 358–365): `failed` when `Runner.RunJob` returned an error, `done`
otherwise.  No exit-code-aware adapter hook is consulted anywhere on
this path. -/
def runJobTerminalStatus (runnerErr : Bool) : JobStatus :=
  if runnerErr then JobStatus.failed else JobStatus.done

/-- Terminal status of a job whose child started and exited with
`exitCode` (composition of the runner's error result and the
orchestrator's status update). -/
def terminalStatusOfExit (exitCode : Nat) : JobStatus :=
  runJobTerminalStatus (runnerReturnsErr (!waitFails exitCode))

/-- Model of `ClaudeExecutor.IsSuccessExitCode` (claude adapter): exit codes 0
and 1 are declared non-fatal, everything else fatal. -/
def claudeIsSuccessExitCode (code : Int) : Bool :=
  code == 0 || code == 1

/-! ## Dispatcher (`internal/queue/dispatcher.go`)

The dispatcher keeps one FIFO channel per session-key string with a
worker goroutine draining it; before invoking the user worker it
acquires one slot of a semaphore channel of capacity `maxConcurrent`
and releases it when the worker returns.  The model is a labelled
transition system: `enqueue` appends to a session's queue, `pickup`
moves the queue head into the running set (only when no job of that
session is running — each session has exactly one worker goroutine,
which runs jobs synchronously — and only when a semaphore slot is
free), `finish` removes a running job.  `started`, `finished` and
`enqueued` are history variables recording each session's worker
invocations, worker returns and enqueues, in order. -/

/-- Pointwise update of a per-session-string table. -/
def updQ (f : String → List Job) (k : String) (v : List Job) :
    String → List Job :=
  fun k' => if k' = k then v else f k'

structure DState where
  queues : String → List Job
  active : List (String × Job)
  started : String → List Job
  finished : String → List Job
  enqueued : String → List Job

def DState.init : DState :=
  ⟨fun _ => [], [], fun _ => [], fun _ => [], fun _ => []⟩

inductive DStep (maxC : Nat) : DState → DState → Prop where
  | enqueue (s : DState) (j : Job) :
      DStep maxC s
        ⟨updQ s.queues j.sessionKey.str (s.queues j.sessionKey.str ++ [j]),
         s.active, s.started, s.finished,
         updQ s.enqueued j.sessionKey.str (s.enqueued j.sessionKey.str ++ [j])⟩
  | pickup (s : DState) (k : String) (j : Job) (rest : List Job)
      (hq : s.queues k = j :: rest) (hidle : ∀ p ∈ s.active, p.1 ≠ k)
      (hcap : s.active.length < maxC) :
      DStep maxC s
        ⟨updQ s.queues k rest, (k, j) :: s.active,
         updQ s.started k (s.started k ++ [j]), s.finished, s.enqueued⟩
  | finish (s : DState) (k : String) (j : Job) (hrun : (k, j) ∈ s.active) :
      DStep maxC s
        ⟨s.queues, s.active.filter (fun p => p.1 != k), s.started,
         updQ s.finished k (s.finished k ++ [j]), s.enqueued⟩

/-- States reachable from the empty dispatcher. -/
inductive DReach (maxC : Nat) : DState → Prop where
  | init : DReach maxC DState.init
  | step {s s' : DState} : DReach maxC s → DStep maxC s s' → DReach maxC s'

/-- The jobs of session `k` currently being run by a worker. -/
def runningFor (act : List (String × Job)) (k : String) : List Job :=
  (act.filter (fun p => p.1 == k)).map Prod.snd

/-- The dispatcher's safety invariant: the semaphore bounds the running
set; no session has two running workers; each session's worker
invocations follow its enqueue order (`enqueued = started ++ queue`);
and its invocation history is its return history plus the at-most-one
running job. -/
def DInv (maxC : Nat) (s : DState) : Prop :=
  s.active.length ≤ maxC ∧
  (s.active.map Prod.fst).Nodup ∧
  (∀ k, s.enqueued k = s.started k ++ s.queues k) ∧
  (∀ k, s.started k = s.finished k ++ runningFor s.active k) ∧
  (∀ k, (runningFor s.active k).length ≤ 1)

/-! ## Orchestrator `enqueueJob` (`internal/service/orchestrator.go`
lines 262–307)

The function's observable effects, in order: an early reply for an
empty prompt or unset workdir or unknown executor; otherwise it builds
the pending job (adopting a loaded executor session id when the
session-aware load succeeded with a non-empty id), validates it against
the policy — replying and returning *before* `Store.CreateJob` and
`Dispatcher.Enqueue` on rejection — and otherwise persists, enqueues
and replies with the job id.  Store reads are modelled by their
results (`wd`, `mode`, `loadedSession`); `loadedSession = none` covers
the load-error path (logged, job continues with an empty session). -/

structure EnqueueOutcome where
  replies : List String
  created : List Job
  enqueuedJobs : List Job
deriving DecidableEq, Repr

/-- The pending job as `enqueueJob` constructs it. -/
def mkPendingJob (jobID : String) (key : SessionKey)
    (exName prompt wd mode : String) (loadedSession : Option String) : Job :=
  let base : Job :=
    { id := jobID, sessionKey := key, executor := exName, session := ""
      prompt := prompt, workdir := wd, status := JobStatus.pending
      permissionMode := mode, errorMessage := "" }
  match loadedSession with
  | some sid => if sid ≠ "" then { base with session := sid } else base
  | none => base

def enqueueJob (policy : Policy) (executors : List String) (jobID : String)
    (key : SessionKey) (exName prompt wd mode : String)
    (loadedSession : Option String) : EnqueueOutcome :=
  if prompt = "" then ⟨["prompt cannot be empty"], [], []⟩
  else if wd = "" then
    ⟨["workdir is not set, use /cd <project_dir> first"], [], []⟩
  else if ¬ executors.contains exName then
    ⟨["unknown executor: " ++ exName], [], []⟩
  else
    let job := mkPendingJob jobID key exName prompt wd mode loadedSession
    match policy.validate job with
    | some err => ⟨["job rejected: " ++ err], [], []⟩
    | none => ⟨["job queued: " ++ jobID], [job], [job]⟩

/-! ## Store and session manager permission mode

The `sessions` table row; `contextJson = none` models an empty
`context_json` column, `some obj` a serialized JSON object kept as its
field list (the code round-trips the column through `encoding/json`,
which preserves the fields this model uses; only string-valued fields
occur).  Timestamps are omitted. -/

structure SessionRow where
  platform : String
  chatID : String
  threadID : String
  workdir : String
  contextJson : Option (List (String × String))

structure Store where
  sessions : String → Option SessionRow

/-- Association-list lookup (model of reading one JSON object field). -/
def lookupA : List (String × String) → String → Option String
  | [], _ => none
  | (k', v) :: rest, k => if k' = k then some v else lookupA rest k

/-- Association-list update (model of `payload["mode"] = mode`). -/
def setA : List (String × String) → String → String → List (String × String)
  | [], k, v => [(k, v)]
  | (k', v') :: rest, k, v =>
    if k' = k then (k, v) :: rest else (k', v') :: setA rest k v

def permissionModeSandbox : String := "sandbox"

def permissionModeFullAccess : String := "full-access"

/-- Modelled from the spec: `domain.NormalizePermissionMode` (the
domain constants file is not under `src/`; `types.go` there is an
earlier revision without it).  Per the spec, the permission mode domain
is `{sandbox, full-access}` with `sandbox` the default for an absent or
unrecognised value, so normalization maps `full-access` to itself and
everything else to `sandbox`. -/
def normalizePermissionMode (mode : String) : String :=
  if mode = permissionModeFullAccess then permissionModeFullAccess
  else permissionModeSandbox

/-- Model of `SQLiteStore.SessionPermissionMode` (store, lines
191–210): `sandbox` when the row is absent or the column empty, else
the normalized `mode` field of the context object (zero value when the
field is absent). -/
def Store.sessionPermissionMode (st : Store) (k : SessionKey) : String :=
  match st.sessions k.str with
  | none => permissionModeSandbox
  | some row =>
    match row.contextJson with
    | none => permissionModeSandbox
    | some obj =>
      normalizePermissionMode
        (match lookupA obj "mode" with | some m => m | none => "")

/-- Model of `SQLiteStore.SetSessionPermissionMode` (store, lines
212–246): normalize, read the existing row's workdir and context,
set `mode` in the context object, and upsert — on conflict only the
context column (and timestamps) change; a fresh row gets the key's
fields and the read-back (empty) workdir. -/
def Store.setSessionPermissionMode (st : Store) (k : SessionKey)
    (mode : String) : Store :=
  let mode := normalizePermissionMode mode
  let old := st.sessions k.str
  let payload :=
    match old with
    | some r => (match r.contextJson with | some o => o | none => [])
    | none => []
  let payload := setA payload "mode" mode
  { sessions := fun s =>
      if s = k.str then
        some (match old with
          | some r => { r with contextJson := some payload }
          | none =>
            { platform := k.platform, chatID := k.chatID
              threadID := k.threadID, workdir := "", contextJson := some payload })
      else st.sessions s }

/-- The session manager's in-memory caches plus the store
(`internal/session/manager.go`). -/
structure Manager where
  store : Store
  workdirs : List (String × String)
  executors : List (String × String)
  modes : List (String × String)
  pending : List (String × String)

/-- Model of `session.NewManager`: empty caches over a store. -/
def Manager.new (st : Store) : Manager :=
  ⟨st, [], [], [], []⟩

/-- Model of `Manager.SetPermissionMode` (manager.go lines 80–86):
normalize, write the cache, write through to the store. -/
def Manager.setPermissionMode (m : Manager) (k : SessionKey)
    (mode : String) : Manager :=
  let mode := normalizePermissionMode mode
  { m with modes := setA m.modes k.str mode
           store := m.store.setSessionPermissionMode k mode }

/-- Model of `Manager.PermissionMode` (manager.go lines 88–105): cache
hit wins; on miss read the store and normalize.  (The cache population
on miss does not affect the returned value and is omitted.) -/
def Manager.permissionMode (m : Manager) (k : SessionKey) : String :=
  match lookupA m.modes k.str with
  | some mode => mode
  | none => normalizePermissionMode (m.store.sessionPermissionMode k)

/-! ## Stream batcher (`Batcher.OnEvent` / `Batcher.sendLocked`) and
the Telegram transport's parse-mode selection

The batcher sends byte strings; Go slices them by byte (`len(msg)`,
`msg[:maxChunk]`), so chunks are `List UInt8` here.  Every outbound
message is built as
`domain.OutboundMessage{SessionKey: b.key, Text: piece}` — the `Format`
field is never set and keeps its zero value `""`. -/

structure OutboundMsg where
  sessionKey : SessionKey
  text : List UInt8
  format : String
deriving DecidableEq, Repr

/-- The send loop of `sendLocked` for `maxChunk = n + 1`: while the
message is longer than `maxChunk`, send the first `maxChunk` bytes and
continue with the rest; finally send the remainder if non-empty. -/
def sendLoop (n : Nat) (key : SessionKey) (msg : List UInt8) :
    List OutboundMsg :=
  if h : n + 1 < msg.length then
    ⟨key, msg.take (n + 1), ""⟩ :: sendLoop n key (msg.drop (n + 1))
  else if msg = [] then [] else [⟨key, msg, ""⟩]
termination_by msg.length
decreasing_by
  simp only [List.length_drop]
  omega

/-- Model of `Batcher.sendLocked` (stream batcher, lines 51–65): one
send when `maxChunk ≤ 0` or the message fits, else the split loop. -/
def Batcher.sendLocked (maxChunk : Nat) (key : SessionKey)
    (msg : List UInt8) : List OutboundMsg :=
  if msg.length ≤ maxChunk then [⟨key, msg, ""⟩]
  else
    match maxChunk with
    | 0 => [⟨key, msg, ""⟩]
    | n + 1 => sendLoop n key msg

/-- Model of `Batcher.OnEvent` (stream batcher, lines 37–44): empty
chunks are dropped, others go through `sendLocked`. -/
def Batcher.onEvent (maxChunk : Nat) (key : SessionKey)
    (chunk : List UInt8) : List OutboundMsg :=
  if chunk = [] then [] else Batcher.sendLocked maxChunk key chunk

/-- The Telegram transport's parse-mode selection (`Bot.Send`, telegram
transport lines 103–107): `parse_mode: "HTML"` is added to the payload
exactly when the outbound message's `Format` is `"html"`. -/
def telegramParseMode (msg : OutboundMsg) : Option String :=
  if msg.format = "html" then some "HTML" else none

/-- Concatenation of a list of byte strings. -/
def joinBytes (l : List (List UInt8)) : List UInt8 :=
  l.foldr (fun x acc => x ++ acc) []

/-! ## Codex adapter (`internal/executor/codex.go`)

The adapter rewrites each stdout line: trim, require a leading `{`,
decode the line with `encoding/json` into `codexJSONEvent`, derive the
user-visible text and format, and append a trailing newline to
non-empty text.  `encoding/json` is modelled by a small executable
JSON parser (`parseJson`) plus decoders mirroring the struct tags.
The braces characters are written via their code points below only for
lexical reasons; they are ordinary `{` / `}`. -/

def braceL : Char := Char.ofNat 123

def braceR : Char := Char.ofNat 125

inductive Json where
  | null
  | jbool (b : Bool)
  | jnum (n : Int)
  | jstr (s : String)
  | jarr (elems : List Json)
  | jobj (fields : List (String × Json))

/-- JSON insignificant whitespace. -/
def skipWs : List Char → List Char
  | [] => []
  | c :: cs =>
    if c = ' ' || c = '\t' || c = '\n' || c = '\r' then skipWs cs else c :: cs

def hexVal (c : Char) : Option Nat :=
  if '0' ≤ c ∧ c ≤ '9' then some (c.toNat - '0'.toNat)
  else if 'a' ≤ c ∧ c ≤ 'f' then some (c.toNat - 'a'.toNat + 10)
  else if 'A' ≤ c ∧ c ≤ 'F' then some (c.toNat - 'A'.toNat + 10)
  else none

def hex4 (a b c d : Char) : Option Nat :=
  match hexVal a, hexVal b, hexVal c, hexVal d with
  | some x, some y, some z, some w => some (((x * 16 + y) * 16 + z) * 16 + w)
  | _, _, _, _ => none

/-- Parse the body of a JSON string after the opening quote, returning
the decoded characters and the remaining input after the closing
quote. -/
def pStringBody : Nat → List Char → Option (List Char × List Char)
  | 0, _ => none
  | _, [] => none
  | fuel + 1, c :: cs =>
    if c = '"' then some ([], cs)
    else if c = '\\' then
      match cs with
      | [] => none
      | e :: cs2 =>
        if e = 'n' then
          (pStringBody fuel cs2).map (fun p => ('\n' :: p.1, p.2))
        else if e = 't' then
          (pStringBody fuel cs2).map (fun p => ('\t' :: p.1, p.2))
        else if e = 'r' then
          (pStringBody fuel cs2).map (fun p => ('\r' :: p.1, p.2))
        else if e = 'b' then
          (pStringBody fuel cs2).map (fun p => (Char.ofNat 8 :: p.1, p.2))
        else if e = 'f' then
          (pStringBody fuel cs2).map (fun p => (Char.ofNat 12 :: p.1, p.2))
        else if e = '"' then
          (pStringBody fuel cs2).map (fun p => ('"' :: p.1, p.2))
        else if e = '\\' then
          (pStringBody fuel cs2).map (fun p => ('\\' :: p.1, p.2))
        else if e = '/' then
          (pStringBody fuel cs2).map (fun p => ('/' :: p.1, p.2))
        else if e = 'u' then
          match cs2 with
          | a :: b :: c2 :: d :: cs3 =>
            match hex4 a b c2 d with
            | some n => (pStringBody fuel cs3).map (fun p => (Char.ofNat n :: p.1, p.2))
            | none => none
          | _ => none
        else none
    else (pStringBody fuel cs).map (fun p => (c :: p.1, p.2))

/-- Integer literals (the decoded struct fields in scope are strings
and objects; fractional numbers do not occur in the modelled inputs
and make the parse fail). -/
def pDigits : List Char → Option (Nat × List Char)
  | cs =>
    let ds := cs.takeWhile (fun c => '0' ≤ c ∧ c ≤ '9')
    if ds = [] then none
    else some (ds.foldl (fun acc c => acc * 10 + (c.toNat - '0'.toNat)) 0,
               cs.dropWhile (fun c => '0' ≤ c ∧ c ≤ '9'))

def pNum : List Char → Option (Int × List Char)
  | '-' :: cs => (pDigits cs).map (fun p => (-(p.1 : Int), p.2))
  | cs => (pDigits cs).map (fun p => ((p.1 : Int), p.2))

mutual

def pValue : Nat → List Char → Option (Json × List Char)
  | 0, _ => none
  | fuel + 1, cs =>
    match skipWs cs with
    | [] => none
    | c :: rest =>
      if c = '"' then
        (pStringBody (fuel + 1) rest).map (fun p => (Json.jstr (String.mk p.1), p.2))
      else if c = braceL then
        match skipWs rest with
        | c2 :: rest2 =>
          if c2 = braceR then some (Json.jobj [], rest2)
          else (pMembers fuel (c2 :: rest2)).map (fun p => (Json.jobj p.1, p.2))
        | [] => none
      else if c = '[' then
        match skipWs rest with
        | ']' :: rest2 => some (Json.jarr [], rest2)
        | rest2 => (pElems fuel rest2).map (fun p => (Json.jarr p.1, p.2))
      else if c = 't' then
        match rest with
        | 'r' :: 'u' :: 'e' :: rest2 => some (Json.jbool true, rest2)
        | _ => none
      else if c = 'f' then
        match rest with
        | 'a' :: 'l' :: 's' :: 'e' :: rest2 => some (Json.jbool false, rest2)
        | _ => none
      else if c = 'n' then
        match rest with
        | 'u' :: 'l' :: 'l' :: rest2 => some (Json.null, rest2)
        | _ => none
      else (pNum (c :: rest)).map (fun p => (Json.jnum p.1, p.2))

def pMembers : Nat → List Char → Option (List (String × Json) × List Char)
  | 0, _ => none
  | fuel + 1, cs =>
    match skipWs cs with
    | '"' :: rest =>
      match pStringBody (fuel + 1) rest with
      | none => none
      | some (key, rest2) =>
        match skipWs rest2 with
        | ':' :: rest3 =>
          match pValue fuel rest3 with
          | none => none
          | some (v, rest4) =>
            match skipWs rest4 with
            | ',' :: rest5 =>
              (pMembers fuel rest5).map
                (fun p => ((String.mk key, v) :: p.1, p.2))
            | c :: rest5 =>
              if c = braceR then some ([(String.mk key, v)], rest5) else none
            | [] => none
        | _ => none
    | _ => none

def pElems : Nat → List Char → Option (List Json × List Char)
  | 0, _ => none
  | fuel + 1, cs =>
    match pValue fuel cs with
    | none => none
    | some (v, rest) =>
      match skipWs rest with
      | ',' :: rest2 => (pElems fuel rest2).map (fun p => (v :: p.1, p.2))
      | ']' :: rest2 => some ([v], rest2)
      | _ => none

end

/-- Parse a complete JSON document (model of a successful
`json.Unmarshal` syntax pass: the value must consume the whole
input up to trailing whitespace). -/
def parseJson (s : String) : Option Json :=
  match pValue (2 * s.data.length + 16) s.data with
  | some (j, rest) => if skipWs rest = [] then some j else none
  | none => none

/-- JSON object field access by exact key (the struct tags in scope all
match the wire names exactly). -/
def jLookup : List (String × Json) → String → Option Json
  | [], _ => none
  | (k', v) :: rest, k => if k' = k then some v else jLookup rest k

/-- Decode a `string`-typed struct field: absent or `null` leaves the
zero value, a string decodes, anything else is an `Unmarshal` error. -/
def jStrField (fields : List (String × Json)) (k : String) : Option String :=
  match jLookup fields k with
  | none => some ""
  | some Json.null => some ""
  | some (Json.jstr s) => some s
  | some _ => none

structure CodexJSONError where
  message : String

structure CodexJSONSession where
  id : String

structure CodexJSONItem where
  id : String
  typ : String
  text : String
  command : String
  aggregatedOutput : String

structure CodexJSONEvent where
  typ : String
  threadID : String
  sessionID : String
  message : String
  error : Option CodexJSONError
  item : Option CodexJSONItem
  session : Option CodexJSONSession

/-- Decode a pointer-to-struct field: absent or `null` is a nil
pointer. -/
def decodePtr (dec : List (String × Json) → Option α) :
    Option Json → Option (Option α)
  | none => some none
  | some Json.null => some none
  | some (Json.jobj f) => (dec f).map some
  | some _ => none

def decodeCodexErrorFields (f : List (String × Json)) :
    Option CodexJSONError :=
  (jStrField f "message").map CodexJSONError.mk

def decodeCodexSessionFields (f : List (String × Json)) :
    Option CodexJSONSession :=
  (jStrField f "id").map CodexJSONSession.mk

def decodeCodexItemFields (f : List (String × Json)) :
    Option CodexJSONItem := do
  let id ← jStrField f "id"
  let typ ← jStrField f "type"
  let text ← jStrField f "text"
  let command ← jStrField f "command"
  let agg ← jStrField f "aggregated_output"
  pure ⟨id, typ, text, command, agg⟩

/-- Decode into `codexJSONEvent` per the struct tags (codex.go lines
152–176). -/
def decodeCodexEvent : Json → Option CodexJSONEvent
  | Json.jobj f => do
    let typ ← jStrField f "type"
    let threadID ← jStrField f "thread_id"
    let sessionID ← jStrField f "session_id"
    let message ← jStrField f "message"
    let err ← decodePtr decodeCodexErrorFields (jLookup f "error")
    let item ← decodePtr decodeCodexItemFields (jLookup f "item")
    let session ← decodePtr decodeCodexSessionFields (jLookup f "session")
    pure ⟨typ, threadID, sessionID, message, err, item, session⟩
  | _ => none

/-- Model of Go `html.EscapeString`. -/
def htmlEscapeChar (c : Char) : List Char :=
  if c = '&' then "&amp;".data
  else if c = '\'' then "&#39;".data
  else if c = '<' then "&lt;".data
  else if c = '>' then "&gt;".data
  else if c = '"' then "&#34;".data
  else [c]

def htmlEscape (s : String) : String :=
  String.mk (s.data.foldr (fun c acc => htmlEscapeChar c ++ acc) [])

def commandTruncateLimit : Nat := 800

/-- Model of `truncateCommandForDisplay` (codex.go lines 200–211). -/
def truncateCommandForDisplay (cmd : String) : String :=
  if cmd.data.length ≤ commandTruncateLimit then cmd
  else
    let ls := splitSep '\n' cmd.data
    if ls.length ≤ 6 then cmd
    else String.mk (joinSep '\n' (ls.take 3)
      ++ "\n ...... [truncated] ...... \n\n".data
      ++ joinSep '\n' (ls.drop (ls.length - 3)))

/-- Model of `formatCommandExecutionHTML` (codex.go lines 178–198). -/
def formatCommandExecutionHTML (cmd out : String) : String :=
  let cmd := truncateCommandForDisplay (trimSpace cmd)
  let out := trimSpace out
  if cmd = "" ∧ out = "" then ""
  else
    "<b>command_execution</b>"
      ++ (if cmd ≠ "" then "\n<code>" ++ htmlEscape cmd ++ "</code>" else "")
      ++ (if out ≠ "" then "\n<pre>" ++ htmlEscape out ++ "</pre>\n" else "")

/-- Model of `extractCodexSessionID` (codex.go lines 114–124). -/
def extractCodexSessionID (ev : CodexJSONEvent) : String :=
  if trimSpace ev.threadID ≠ "" then trimSpace ev.threadID
  else if trimSpace ev.sessionID ≠ "" then trimSpace ev.sessionID
  else
    match ev.session with
    | some s => if trimSpace s.id ≠ "" then trimSpace s.id else ""
    | none => ""

/-- Model of `extractCodexEventText` (codex.go lines 126–150); returns
(text, format). -/
def extractCodexEventText (ev : CodexJSONEvent) : String × String :=
  if ev.typ = "error" then (ev.message, "")
  else if ev.typ = "turn.failed" then
    match ev.error with
    | some e => if e.message ≠ "" then (e.message, "") else (ev.message, "")
    | none => (ev.message, "")
  else if ev.typ = "item.completed" then
    match ev.item with
    | none => ("", "")
    | some it =>
      if it.typ = "agent_message" || it.typ = "reasoning" then (it.text, "")
      else if it.typ = "command_execution" then
        (formatCommandExecutionHTML it.command it.aggregatedOutput, "html")
      else if ev.message ≠ "" then (ev.message, "")
      else ("", "")
  else if ev.message ≠ "" then (ev.message, "")
  else ("", "")

/-- Model of `parseCodexJSONEvent` (codex.go lines 97–112): returns
`(sessionID, text, format)` on a decodable JSON line, `none`
otherwise. -/
def parseCodexJSONEvent (chunk : String) : Option (String × String × String) :=
  let line := trimSpace chunk
  if ¬ strHasPref line (String.mk [braceL]) then none
  else
    match parseJson line with
    | none => none
    | some j =>
      match decodeCodexEvent j with
      | none => none
      | some ev =>
        let sid := extractCodexSessionID ev
        let tf := extractCodexEventText ev
        let text :=
          if tf.1 ≠ "" ∧ ¬ strHasSuffix tf.1 "\n" then tf.1 ++ "\n" else tf.1
        some (sid, text, tf.2)

/-- The chunk/format rewrite of `CodexExecutor.HandleEvent` (codex.go
lines 82–95).  The returned session id (including the
`extractSessionIDByRegex` fallback) only affects the adapter's return
value, not the event, and is not needed by the checked claims. -/
def codexHandleEventRewrite (ev : StreamEvent) : StreamEvent :=
  match parseCodexJSONEvent ev.chunk with
  | some r => { ev with chunk := r.2.1, format := r.2.2 }
  | none => { ev with chunk := "" }

/-! # Helper lemmas -/

theorem updQ_self (f : String → List Job) (k : String) (v : List Job) :
    updQ f k v k = v := by
  simp [updQ]

theorem updQ_ne (f : String → List Job) (k k' : String) (v : List Job)
    (h : k' ≠ k) : updQ f k v k' = f k' := by
  simp [updQ, h]

theorem lookupA_setA_self (l : List (String × String)) (k v : String) :
    lookupA (setA l k v) k = some v := by
  induction l with
  | nil => simp [setA, lookupA]
  | cons p rest ih =>
    by_cases h : p.1 = k
    · simp [setA, lookupA, h]
    · simp [setA, lookupA, h, ih]

theorem normalizePermissionMode_valid (m : String)
    (h : m = permissionModeSandbox ∨ m = permissionModeFullAccess) :
    normalizePermissionMode m = m := by
  rcases h with h | h <;> subst h <;> decide

theorem normalizePermissionMode_idem (m : String) :
    normalizePermissionMode (normalizePermissionMode m) =
      normalizePermissionMode m := by
  unfold normalizePermissionMode
  by_cases h : m = permissionModeFullAccess
  · simp [h]
  · simp [h]
    decide

theorem store_set_get_mode (st : Store) (k : SessionKey) (mode : String) :
    (st.setSessionPermissionMode k mode).sessionPermissionMode k =
      normalizePermissionMode mode := by
  cases hrow : st.sessions k.str with
  | none =>
    simp [Store.setSessionPermissionMode, Store.sessionPermissionMode, hrow,
      lookupA_setA_self, normalizePermissionMode_idem]
  | some r =>
    cases hcj : r.contextJson <;>
      simp [Store.setSessionPermissionMode, Store.sessionPermissionMode, hrow,
        hcj, lookupA_setA_self, normalizePermissionMode_idem]

theorem sendLoop_spec_aux :
    ∀ (L n : Nat) (key : SessionKey) (msg : List UInt8), msg.length ≤ L →
      joinBytes ((sendLoop n key msg).map (fun m => m.text)) = msg ∧
      ∀ m ∈ sendLoop n key msg,
        m.format = "" ∧ m.sessionKey = key ∧ m.text.length ≤ n + 1 := by
  intro L
  induction L with
  | zero =>
    intro n key msg hlen
    have hmsg : msg = [] := List.eq_nil_of_length_eq_zero (Nat.le_zero.mp hlen)
    subst hmsg
    rw [sendLoop]
    simp [joinBytes]
  | succ L ih =>
    intro n key msg hlen
    by_cases hc : n + 1 < msg.length
    · have hrec := ih n key (msg.drop (n + 1)) (by simp; omega)
      have heq : sendLoop n key msg
          = ⟨key, msg.take (n + 1), ""⟩ :: sendLoop n key (msg.drop (n + 1)) := by
        rw [sendLoop]
        simp [hc]
      rw [heq]
      constructor
      · simp only [List.map_cons, joinBytes, List.foldr_cons]
        have : joinBytes ((sendLoop n key (msg.drop (n + 1))).map
            (fun m => m.text)) = msg.drop (n + 1) := hrec.1
        simp only [joinBytes] at this
        rw [this, List.take_append_drop]
      · intro m hm
        rcases List.mem_cons.mp hm with h | h
        · subst h
          refine ⟨rfl, rfl, ?_⟩
          simp [List.length_take]
        · exact hrec.2 m h
    · by_cases hne : msg = []
      · subst hne
        rw [sendLoop]
        simp [joinBytes]
      · have heq : sendLoop n key msg = [⟨key, msg, ""⟩] := by
          rw [sendLoop]
          simp [hc, hne]
        rw [heq]
        constructor
        · simp [joinBytes]
        · intro m hm
          rcases List.mem_singleton.mp hm with h
          subst h
          refine ⟨rfl, rfl, ?_⟩
          show msg.length ≤ n + 1
          omega

theorem sendLoop_two (n : Nat) (key : SessionKey) (msg : List UInt8)
    (h : msg.length = n + 2) :
    sendLoop n key msg
      = [⟨key, msg.take (n + 1), ""⟩, ⟨key, msg.drop (n + 1), ""⟩] := by
  have hc : n + 1 < msg.length := by omega
  have hdlen : (msg.drop (n + 1)).length = 1 := by simp [h]
  have hdne : msg.drop (n + 1) ≠ [] := by
    intro hnil
    rw [hnil] at hdlen
    simp at hdlen
  have h2 : sendLoop n key (msg.drop (n + 1)) = [⟨key, msg.drop (n + 1), ""⟩] := by
    rw [sendLoop]
    simp [hdlen, hdne]
  rw [sendLoop]
  simp [hc, h2]

theorem batcher_onEvent_spec (maxChunk : Nat) (key : SessionKey)
    (chunk : List UInt8) :
    joinBytes ((Batcher.onEvent maxChunk key chunk).map (fun m => m.text))
        = chunk ∧
    ∀ m ∈ Batcher.onEvent maxChunk key chunk,
      m.format = "" ∧ m.sessionKey = key ∧
      m.text.length ≤ max maxChunk chunk.length := by
  by_cases hne : chunk = []
  · subst hne
    simp [Batcher.onEvent, joinBytes]
  · unfold Batcher.onEvent Batcher.sendLocked
    simp only [hne, if_false]
    by_cases hfit : chunk.length ≤ maxChunk
    · simp only [hfit, if_true]
      refine ⟨by simp [joinBytes], ?_⟩
      intro m hm
      rcases List.mem_singleton.mp hm with h
      subst h
      exact ⟨rfl, rfl, by simp [le_max_iff]⟩
    · simp only [hfit, if_false]
      cases maxChunk with
      | zero =>
        refine ⟨by simp [joinBytes], ?_⟩
        intro m hm
        rcases List.mem_singleton.mp hm with h
        subst h
        exact ⟨rfl, rfl, by simp [le_max_iff]⟩
      | succ n =>
        have hs := sendLoop_spec_aux chunk.length n key chunk (le_refl _)
        refine ⟨hs.1, ?_⟩
        intro m hm
        have hm2 := hs.2 m hm
        exact ⟨hm2.1, hm2.2.1, by
          have := hm2.2.2
          simp [le_max_iff]
          omega⟩

theorem batcher_onEvent_piece_le (n : Nat) (key : SessionKey)
    (c : List UInt8) (hn : 1 ≤ n) :
    ∀ m ∈ Batcher.onEvent n key c, m.text.length ≤ n := by
  by_cases hne : c = []
  · subst hne
    simp [Batcher.onEvent]
  · unfold Batcher.onEvent Batcher.sendLocked
    simp only [hne, if_false]
    by_cases hfit : c.length ≤ n
    · simp only [hfit, if_true]
      intro m hm
      rcases List.mem_singleton.mp hm with h
      subst h
      simpa using hfit
    · simp only [hfit, if_false]
      cases n with
      | zero => omega
      | succ n' =>
        intro m hm
        exact ((sendLoop_spec_aux c.length n' key c (le_refl _)).2 m hm).2.2

theorem batcher_onEvent_two (n : Nat) (key : SessionKey) (c : List UInt8)
    (hn : 1 ≤ n) (hlen : c.length = n + 1) :
    Batcher.onEvent n key c
      = [⟨key, c.take n, ""⟩, ⟨key, c.drop n, ""⟩] := by
  have hne : c ≠ [] := by
    intro h
    subst h
    simp at hlen
  unfold Batcher.onEvent Batcher.sendLocked
  simp only [hne, if_false]
  have hfit : ¬ c.length ≤ n := by omega
  simp only [hfit, if_false]
  cases n with
  | zero => omega
  | succ n' => exact sendLoop_two n' key c (by omega)

/-! # Claim theorems -/

/-- C1 (code bug): the Claude adapter's `IsSuccessExitCode` declares
exit code 1 non-fatal (and 2 fatal), but neither `Runner.RunJob` nor
`Orchestrator.runJob` ever consults it: the runner returns an error for
any non-zero child exit and the orchestrator then records status
`failed` — independently of whatever `result` events were emitted.  So
a Claude child exiting with code 1 yields terminal status `failed`,
not `done` as claimed; exit code 2 yields `failed` as claimed. -/
theorem claude_exit_one_marks_job_failed :
    terminalStatusOfExit 1 = JobStatus.failed ∧
    claudeIsSuccessExitCode 1 = true ∧
    terminalStatusOfExit 2 = JobStatus.failed ∧
    claudeIsSuccessExitCode 2 = false ∧
    terminalStatusOfExit 0 = JobStatus.done := by
  decide

/-- C8: feeding the Codex stdout line
`{"type":"item.completed","item":{"type":"command_execution","aggregated_output":"line1\nline2\n"}}`
(no `command` field) through the adapter's `HandleEvent` rewrites the
chunk to exactly `<b>command_execution</b>\n<pre>line1\nline2</pre>\n`
and sets the event format to `html`. -/
theorem codex_command_execution_rewrite :
    codexHandleEventRewrite
      { jobID := "job1", seq := 1
        chunk := "\x7b\"type\":\"item.completed\",\"item\":\x7b\"type\":\"command_execution\",\"aggregated_output\":\"line1\\nline2\\n\"\x7d\x7d"
        isFinal := false, stream := "stdout", exitCode := none, format := "" }
      =
      { jobID := "job1", seq := 1
        chunk := "<b>command_execution</b>\n<pre>line1\nline2</pre>\n"
        isFinal := false, stream := "stdout", exitCode := none
        format := "html" } := by
  decide

/-- C6: `SetPermissionMode(k, m)` followed by `PermissionMode(k)` on a
freshly constructed `Manager` over the same store returns `m` for both
valid modes, and `PermissionMode` returns `sandbox` (not an error) when
the session row is absent, when its context column is empty, and when
the context object lacks a `mode` field. -/
theorem permission_mode_round_trip :
    (∀ (m : Manager) (k : SessionKey) (mode : String),
        mode = permissionModeSandbox ∨ mode = permissionModeFullAccess →
        (Manager.new ((m.setPermissionMode k mode).store)).permissionMode k
          = mode) ∧
    (∀ (st : Store) (k : SessionKey), st.sessions k.str = none →
        (Manager.new st).permissionMode k = permissionModeSandbox) ∧
    (∀ (st : Store) (k : SessionKey) (row : SessionRow),
        st.sessions k.str = some row → row.contextJson = none →
        (Manager.new st).permissionMode k = permissionModeSandbox) ∧
    (∀ (st : Store) (k : SessionKey) (row : SessionRow)
        (obj : List (String × String)),
        st.sessions k.str = some row → row.contextJson = some obj →
        lookupA obj "mode" = none →
        (Manager.new st).permissionMode k = permissionModeSandbox) := by
  refine ⟨?_, ?_, ?_, ?_⟩
  · intro m k mode hmode
    have hnorm := normalizePermissionMode_valid mode hmode
    simp only [Manager.new, Manager.permissionMode, Manager.setPermissionMode,
      lookupA]
    rw [store_set_get_mode]
    rw [normalizePermissionMode_idem, normalizePermissionMode_idem, hnorm]
  · intro st k h
    simp [Manager.new, Manager.permissionMode, lookupA,
      Store.sessionPermissionMode, h, normalizePermissionMode]
    decide
  · intro st k row h hcj
    simp [Manager.new, Manager.permissionMode, lookupA,
      Store.sessionPermissionMode, h, hcj, normalizePermissionMode]
    decide
  · intro st k row obj h hcj hmode
    simp [Manager.new, Manager.permissionMode, lookupA,
      Store.sessionPermissionMode, h, hcj, hmode, normalizePermissionMode]
    decide

/-- Witness for `permission_mode_round_trip`: the round trip evaluated
with `full-access` on an initially empty store. -/
theorem permission_mode_round_trip_witness :
    (Manager.new (((Manager.new ⟨fun _ => none⟩).setPermissionMode
        ⟨"telegram", "1", ""⟩ "full-access").store)).permissionMode
      ⟨"telegram", "1", ""⟩ = "full-access" := by
  exact permission_mode_round_trip.1 (Manager.new ⟨fun _ => none⟩)
    ⟨"telegram", "1", ""⟩ "full-access" (Or.inr rfl)

/-- C7: the batcher's byte-wise chunk splitting.  An empty chunk causes
no send; the concatenation of the sent pieces always equals the
original chunk; for `maxChunk = N ≥ 1` every sent piece is at most `N`
bytes; and a chunk of `N + 1` bytes is sent as exactly two pieces of
`N` bytes and `1` byte. -/
theorem batcher_chunk_splitting :
    (∀ (maxChunk : Nat) (key : SessionKey),
        Batcher.onEvent maxChunk key [] = []) ∧
    (∀ (maxChunk : Nat) (key : SessionKey) (c : List UInt8),
        joinBytes ((Batcher.onEvent maxChunk key c).map (fun m => m.text))
          = c) ∧
    (∀ (maxChunk : Nat) (key : SessionKey) (c : List UInt8)
        (m : OutboundMsg), 1 ≤ maxChunk → m ∈ Batcher.onEvent maxChunk key c →
        m.text.length ≤ maxChunk) ∧
    (∀ (maxChunk : Nat) (key : SessionKey) (c : List UInt8),
        1 ≤ maxChunk → c.length = maxChunk + 1 →
        Batcher.onEvent maxChunk key c
            = [⟨key, c.take maxChunk, ""⟩, ⟨key, c.drop maxChunk, ""⟩] ∧
          (c.take maxChunk).length = maxChunk ∧
          (c.drop maxChunk).length = 1) := by
  refine ⟨?_, ?_, ?_, ?_⟩
  · intro maxChunk key
    simp [Batcher.onEvent]
  · intro maxChunk key c
    exact (batcher_onEvent_spec maxChunk key c).1
  · intro maxChunk key c m hn hm
    exact batcher_onEvent_piece_le maxChunk key c hn m hm
  · intro maxChunk key c hn hlen
    refine ⟨batcher_onEvent_two maxChunk key c hn hlen, ?_, ?_⟩
    · simp [List.length_take]
      omega
    · simp [List.length_drop]
      omega

/-- Witness for `batcher_chunk_splitting`: `maxChunk = 3` and a 4-byte
chunk produce exactly the sends `[1,2,3]` and `[4]`. -/
theorem batcher_chunk_splitting_witness :
    Batcher.onEvent 3 ⟨"telegram", "1", ""⟩ ([1, 2, 3, 4] : List UInt8)
      = [⟨⟨"telegram", "1", ""⟩, [1, 2, 3], ""⟩,
         ⟨⟨"telegram", "1", ""⟩, [4], ""⟩] := by
  have h := (batcher_chunk_splitting.2.2.2 3 ⟨"telegram", "1", ""⟩
    ([1, 2, 3, 4] : List UInt8) (by decide) (by decide)).1
  simpa using h

/-- C9: every outbound message the batcher constructs carries the zero
`Format` (sendLocked builds messages from the session key and text
only), so stream events an adapter rewrote to `html` are still
delivered as plain text: the Telegram transport adds
`parse_mode: "HTML"` exactly when the outbound `Format` is `"html"`,
which the batcher never sets. -/
theorem batcher_outbound_plain_format :
    (∀ (maxChunk : Nat) (key : SessionKey) (chunk : List UInt8),
        ∀ m ∈ Batcher.onEvent maxChunk key chunk,
          m.format = "" ∧ telegramParseMode m = none) ∧
    (∀ m : OutboundMsg, telegramParseMode m = some "HTML" ↔ m.format = "html") := by
  constructor
  · intro maxChunk key chunk m hm
    have h := (batcher_onEvent_spec maxChunk key chunk).2 m hm
    refine ⟨h.1, ?_⟩
    simp [telegramParseMode, h.1]
  · intro m
    unfold telegramParseMode
    by_cases h : m.format = "html" <;> simp [h]

/-- Witness for `batcher_outbound_plain_format`: the single send of a
one-byte chunk has empty format and no parse mode. -/
theorem batcher_outbound_plain_format_witness :
    (⟨⟨"telegram", "1", ""⟩, [104], ""⟩ : OutboundMsg).format = "" ∧
    telegramParseMode (⟨⟨"telegram", "1", ""⟩, [104], ""⟩ : OutboundMsg)
      = none := by
  exact batcher_outbound_plain_format.1 5 ⟨"telegram", "1", ""⟩ [104]
    ⟨⟨"telegram", "1", ""⟩, [104], ""⟩ (by decide)

/-- C4: `ValidateWorkdir` rejects the empty string; for a non-empty
path it succeeds iff the cleaned path equals one of the configured
(cleaned) roots or lies strictly below one with a separator boundary;
with root `/repo`, `/repo-evil` is rejected while `/repo` and
`/repo/app` are accepted. -/
theorem policy_validateWorkdir_spec :
    (∀ (allow roots : List String),
        ((Policy.new allow roots).validateWorkdir "").isSome = true) ∧
    (∀ (allow roots : List String) (wd : String), wd ≠ "" →
        ((Policy.new allow roots).validateWorkdir wd = none ↔
          ∃ r ∈ (Policy.new allow roots).roots,
            filepathClean wd = r ∨
              hasPref (r ++ "/").data (filepathClean wd).data = true)) ∧
    ((Policy.new ["codex"] ["/repo"]).validateWorkdir "/repo-evil").isSome
        = true ∧
    (Policy.new ["codex"] ["/repo"]).validateWorkdir "/repo" = none ∧
    (Policy.new ["codex"] ["/repo"]).validateWorkdir "/repo/app" = none := by
  refine ⟨?_, ?_, by decide, by decide, by decide⟩
  · intro allow roots
    simp [Policy.validateWorkdir]
  · intro allow roots wd hwd
    have h1 : ((Policy.new allow roots).validateWorkdir wd = none) ↔
        ((Policy.new allow roots).roots.any
          (fun root => filepathClean wd == root
            || hasPref (root ++ "/").data (filepathClean wd).data) = true) := by
      unfold Policy.validateWorkdir
      rw [if_neg hwd]
      cases hany : (Policy.new allow roots).roots.any
          (fun root => filepathClean wd == root
            || hasPref (root ++ "/").data (filepathClean wd).data)
      · simp only [hany]
        simp
      · simp only [hany]
        simp
    rw [h1, List.any_eq_true]
    simp only [Bool.or_eq_true, beq_iff_eq]

/-- Witness for `policy_validateWorkdir_spec`: the characterisation
instantiated at root `/repo` and workdir `/repo/x`. -/
theorem policy_validateWorkdir_spec_witness :
    (Policy.new ["codex"] ["/repo"]).validateWorkdir "/repo/x" = none ↔
      ∃ r ∈ (Policy.new ["codex"] ["/repo"]).roots,
        filepathClean "/repo/x" = r ∨
          hasPref (r ++ "/").data (filepathClean "/repo/x").data = true :=
  policy_validateWorkdir_spec.2.1 ["codex"] ["/repo"] "/repo/x" (by decide)

/-- C5: when `Policy.Validate` rejects the built job, `enqueueJob`
replies `job rejected: <error>` and returns with no `CreateJob` and no
`Enqueue` (state unchanged); with roots `[/repo]` and workdir `/etc`
the reply contains `workdir` and `outside` and no job row or queue
entry is produced. -/
theorem enqueueJob_policy_reject :
    (∀ (policy : Policy) (executors : List String) (jobID : String)
        (key : SessionKey) (exName prompt wd mode : String)
        (loadedSession : Option String) (err : String),
        prompt ≠ "" → wd ≠ "" → executors.contains exName = true →
        policy.validate
            (mkPendingJob jobID key exName prompt wd mode loadedSession)
          = some err →
        enqueueJob policy executors jobID key exName prompt wd mode
            loadedSession
          = ⟨["job rejected: " ++ err], [], []⟩) ∧
    (enqueueJob (Policy.new ["codex"] ["/repo"]) ["codex"] "ab12cd34ef56ab78"
        ⟨"telegram", "1", ""⟩ "codex" "hi" "/etc" "sandbox" none
      = ⟨["job rejected: workdir \"/etc\" is outside allowed roots"], [], []⟩) ∧
    strContains "job rejected: workdir \"/etc\" is outside allowed roots"
        "workdir" = true ∧
    strContains "job rejected: workdir \"/etc\" is outside allowed roots"
        "outside" = true := by
  refine ⟨?_, by decide, by decide, by decide⟩
  intro policy executors jobID key exName prompt wd mode loadedSession err
    hp hw hx hv
  have hx' : exName ∈ executors := by simpa using hx
  simp [enqueueJob, hp, hw, hx', hv]

/-- Witness for `enqueueJob_policy_reject`: the general rejection shape
evaluated at the `/etc`-outside-`/repo` input. -/
theorem enqueueJob_policy_reject_witness :
    enqueueJob (Policy.new ["codex"] ["/repo"]) ["codex"] "ab12cd34ef56ab78"
        ⟨"telegram", "1", ""⟩ "codex" "hi" "/etc" "sandbox" (some "sid-1")
      = ⟨["job rejected: workdir \"/etc\" is outside allowed roots"], [], []⟩ :=
  enqueueJob_policy_reject.1 (Policy.new ["codex"] ["/repo"]) ["codex"]
    "ab12cd34ef56ab78" ⟨"telegram", "1", ""⟩ "codex" "hi" "/etc" "sandbox"
    (some "sid-1") "workdir \"/etc\" is outside allowed roots"
    (by decide) (by decide) (by decide) (by decide)

theorem enumFromN_map_seq (jobID : String) :
    ∀ (lines : List (String × String)) (k : Nat),
      ((enumFromN k lines).map (fun p => runnerLineEvent jobID p.1 p.2)).map
          (fun e => e.seq)
        = List.range' (k + 1) lines.length := by
  intro lines
  induction lines with
  | nil => intro k; simp [enumFromN, List.range']
  | cons x xs ih =>
    intro k
    simp only [enumFromN, List.map_cons, List.length_cons, List.range']
    exact congrArg (List.cons (k + 1)) (ih (k + 1))

theorem enumFromN_lineEvents_not_final (jobID : String)
    (lines : List (String × String)) (k : Nat) :
    ∀ e ∈ (enumFromN k lines).map (fun p => runnerLineEvent jobID p.1 p.2),
      e.isFinal = false := by
  intro e he
  rcases List.mem_map.mp he with ⟨p, _, rfl⟩
  rfl

theorem interleaving_flip {α : Type} {xs ys zs : List α}
    (h : Interleaving xs ys zs) : Interleaving ys xs zs := by
  induction h with
  | nil => exact Interleaving.nil
  | left _ ih => exact Interleaving.right ih
  | right _ ih => exact Interleaving.left ih

theorem interleave_filter_stream (jobID sname : String) :
    ∀ {xs ys zs : List (String × String)}, Interleaving xs ys zs →
      ∀ (k : Nat), (∀ x ∈ xs, x.1 = sname) → (∀ y ∈ ys, y.1 ≠ sname) →
      (((enumFromN k zs).map (fun p => runnerLineEvent jobID p.1 p.2)).filter
          (fun e => e.stream == sname)).map (fun e => e.chunk)
        = xs.map (fun x => x.2 ++ "\n") := by
  intro xs ys zs h
  induction h with
  | nil => intro k _ _; simp [enumFromN]
  | @left x xs' ys' zs' _ ih =>
    intro k hx hy
    have hx1 : x.1 = sname := hx x (List.mem_cons_self x xs')
    simp only [enumFromN, List.map_cons, List.filter_cons, runnerLineEvent,
      hx1, beq_self_eq_true, if_true]
    refine congrArg (List.cons (x.2 ++ "\n")) ?_
    exact ih (k + 1) (fun a ha => hx a (List.mem_cons_of_mem x ha)) hy
  | @right y xs' ys' zs' _ ih =>
    intro k hx hy
    have hy1 : y.1 ≠ sname := hy y (List.mem_cons_self y ys')
    have hbeq : (y.1 == sname) = false := beq_eq_false_iff_ne.mpr hy1
    simp only [enumFromN, List.map_cons, List.filter_cons, runnerLineEvent,
      hbeq, if_false]
    exact ih (k + 1) hx (fun a ha => hy a (List.mem_cons_of_mem y ha))

theorem runnerEvents_map_seq (jobID : String)
    (lines : List (String × String)) (waitOk : Bool) :
    (runnerEvents jobID lines waitOk).map (fun e => e.seq)
      = List.range' 1 (lines.length + 1) := by
  unfold runnerEvents
  rw [List.map_append, enumFromN_map_seq]
  simp only [List.map_cons, List.map_nil, runnerFinalEvent]
  rw [List.range'_concat]
  simp [Nat.add_comm]

theorem tagStream_fst (stream : String) (ls : List String) :
    ∀ x ∈ tagStream stream ls, x.1 = stream := by
  intro x hx
  rcases List.mem_map.mp hx with ⟨l, _, rfl⟩
  rfl

theorem runningFor_cons (p : String × Job) (act : List (String × Job))
    (k : String) :
    runningFor (p :: act) k
      = if p.1 = k then p.2 :: runningFor act k else runningFor act k := by
  by_cases h : p.1 = k <;> simp [runningFor, List.filter_cons, h]

theorem runningFor_eq_nil_of_idle (act : List (String × Job)) (k : String)
    (h : ∀ p ∈ act, p.1 ≠ k) : runningFor act k = [] := by
  induction act with
  | nil => rfl
  | cons q rest ih =>
    rw [runningFor_cons]
    have hq := h q (List.mem_cons_self q rest)
    simp only [hq, if_false]
    exact ih (fun p hp => h p (List.mem_cons_of_mem q hp))

theorem mem_runningFor_of_mem (act : List (String × Job)) (k : String)
    (j : Job) (h : (k, j) ∈ act) : j ∈ runningFor act k :=
  List.mem_map.mpr ⟨(k, j), List.mem_filter.mpr ⟨h, by simp⟩, rfl⟩

theorem runningFor_filter_ne (act : List (String × Job)) (k k' : String) :
    runningFor (act.filter (fun p => p.1 != k)) k'
      = if k' = k then [] else runningFor act k' := by
  induction act with
  | nil => by_cases hk : k' = k <;> simp [runningFor, hk]
  | cons q rest ih =>
    rw [List.filter_cons]
    by_cases hq : q.1 = k
    · have hqb : (q.1 != k) = false := by simp [hq]
      rw [hqb]
      simp only [Bool.false_eq_true, if_false]
      rw [ih]
      by_cases hk : k' = k
      · simp [hk]
      · have hq' : q.1 ≠ k' := by
          rw [hq]
          exact fun hh => hk hh.symm
        simp [hk, runningFor_cons, hq']
    · have hqb : (q.1 != k) = true := by simp [hq]
      rw [hqb]
      simp only [if_true]
      by_cases hk : k' = k
      · subst hk
        rw [runningFor_cons]
        simp only [hq, if_false]
        rw [ih]
        simp
      · rw [runningFor_cons, runningFor_cons, ih]
        by_cases hqk : q.1 = k' <;> simp [hqk, hk]

theorem DInv_init (maxC : Nat) : DInv maxC DState.init := by
  refine ⟨by simp [DState.init], by simp [DState.init], ?_, ?_, ?_⟩ <;>
    intro k <;> simp [DState.init, runningFor]

theorem DInv_step {maxC : Nat} {s s' : DState} (hs : DStep maxC s s')
    (hinv : DInv maxC s) : DInv maxC s' := by
  obtain ⟨hcap, hnodup, hfifo, hsf, hone⟩ := hinv
  cases hs with
  | enqueue j =>
    refine ⟨hcap, hnodup, ?_, hsf, hone⟩
    intro k
    dsimp only
    by_cases hk : k = j.sessionKey.str
    · subst hk
      rw [updQ_self, updQ_self, hfifo _, List.append_assoc]
    · rw [updQ_ne _ _ k _ hk, updQ_ne _ _ k _ hk]
      exact hfifo k
  | pickup k j rest hq hidle hcap' =>
    have hrun0 : runningFor s.active k = [] :=
      runningFor_eq_nil_of_idle _ _ hidle
    refine ⟨?_, ?_, ?_, ?_, ?_⟩
    · simpa using hcap'
    · dsimp only
      simp only [List.map_cons]
      refine List.nodup_cons.mpr ⟨?_, hnodup⟩
      intro hmem
      rcases List.mem_map.mp hmem with ⟨p, hp, hpk⟩
      exact hidle p hp hpk
    · intro k'
      dsimp only
      by_cases hk : k' = k
      · subst hk
        rw [updQ_self, updQ_self, hfifo k', hq, List.append_assoc]
        rfl
      · rw [updQ_ne _ _ k' _ hk, updQ_ne _ _ k' _ hk]
        exact hfifo k'
    · intro k'
      dsimp only
      by_cases hk : k' = k
      · subst hk
        rw [updQ_self, runningFor_cons]
        simp only [if_pos rfl]
        rw [hrun0, hsf k', hrun0]
        simp
      · rw [updQ_ne _ _ k' _ hk, runningFor_cons]
        have : (k, j).1 ≠ k' := fun hh => hk hh.symm
        simp only [this, if_false]
        exact hsf k'
    · intro k'
      dsimp only
      rw [runningFor_cons]
      by_cases hk : k = k'
      · subst hk
        simp only [if_pos rfl]
        rw [hrun0]
        simp
      · simp only [hk, if_false]
        exact hone k'
  | finish k j hrun =>
    have hjmem : j ∈ runningFor s.active k := mem_runningFor_of_mem _ _ _ hrun
    have hsingle : runningFor s.active k = [j] := by
      have h1 := hone k
      cases hr : runningFor s.active k with
      | nil =>
        rw [hr] at hjmem
        cases hjmem
      | cons a tail =>
        rw [hr] at hjmem h1
        have htail : tail = [] := by
          have : tail.length = 0 := by simpa using h1
          exact List.eq_nil_of_length_eq_zero this
        subst htail
        have : j = a := by simpa using hjmem
        rw [this]
    refine ⟨?_, ?_, hfifo, ?_, ?_⟩
    · exact le_trans (List.length_filter_le _ _) hcap
    · dsimp only
      have hsub : List.Sublist
          ((s.active.filter (fun p => p.1 != k)).map Prod.fst)
          (s.active.map Prod.fst) :=
        List.Sublist.map _ (List.filter_sublist _)
      exact hnodup.sublist hsub
    · intro k'
      dsimp only
      by_cases hk : k' = k
      · subst hk
        rw [updQ_self, runningFor_filter_ne]
        simp only [if_pos rfl]
        rw [hsf k', hsingle]
        simp
      · rw [updQ_ne _ _ k' _ hk, runningFor_filter_ne]
        simp only [hk, if_false]
        exact hsf k'
    · intro k'
      dsimp only
      rw [runningFor_filter_ne]
      by_cases hk : k' = k
      · simp [hk]
      · simp only [hk, if_false]
        exact hone k'

theorem DReach_inv {maxC : Nat} {s : DState} (h : DReach maxC s) :
    DInv maxC s := by
  induction h with
  | init => exact DInv_init maxC
  | step _ hs ih => exact DInv_step hs ih

/-- C2: for every run of `RunJob` in which the child started — i.e. for
every merge `lines` of the two tagged output streams and every `Wait`
outcome — the events delivered to the sink carry seq values `1..N`
contiguously, exactly one event is final, that event is the last one
with the maximum seq, stream `meta`, and exit code `0` when `Wait`
succeeded and `1` otherwise; and each stream's lines appear in reader
order with a trailing newline. -/
theorem runner_event_stream_invariants
    (jobID : String) (stdoutLines stderrLines : List String)
    (lines : List (String × String)) (waitOk : Bool)
    (h : Interleaving (tagStream "stdout" stdoutLines)
      (tagStream "stderr" stderrLines) lines) :
    (runnerEvents jobID lines waitOk).map (fun e => e.seq)
        = List.range' 1 (lines.length + 1) ∧
    ((runnerEvents jobID lines waitOk).filter (fun e => e.isFinal)).length
        = 1 ∧
    (runnerEvents jobID lines waitOk).getLast?
        = some (runnerFinalEvent jobID lines.length waitOk) ∧
    (runnerFinalEvent jobID lines.length waitOk).isFinal = true ∧
    (runnerFinalEvent jobID lines.length waitOk).stream = "meta" ∧
    (runnerFinalEvent jobID lines.length waitOk).seq = lines.length + 1 ∧
    (runnerFinalEvent jobID lines.length waitOk).exitCode
        = some (if waitOk then 0 else 1) ∧
    (∀ e ∈ runnerEvents jobID lines waitOk, e.seq ≤ lines.length + 1) ∧
    (∀ e ∈ (runnerEvents jobID lines waitOk).dropLast, e.isFinal = false) ∧
    ((runnerEvents jobID lines waitOk).filter
        (fun e => e.stream == "stdout")).map (fun e => e.chunk)
        = stdoutLines.map (fun l => l ++ "\n") ∧
    ((runnerEvents jobID lines waitOk).filter
        (fun e => e.stream == "stderr")).map (fun e => e.chunk)
        = stderrLines.map (fun l => l ++ "\n") := by
  have hnotfin := enumFromN_lineEvents_not_final jobID lines 0
  refine ⟨runnerEvents_map_seq jobID lines waitOk, ?_, ?_, rfl, rfl, rfl, rfl,
    ?_, ?_, ?_, ?_⟩
  · unfold runnerEvents
    rw [List.filter_append]
    have h1 : ((enumFromN 0 lines).map
        (fun p => runnerLineEvent jobID p.1 p.2)).filter
          (fun e => e.isFinal) = [] := by
      rw [List.filter_eq_nil_iff]
      intro e he
      simp [hnotfin e he]
    rw [h1]
    simp [runnerFinalEvent]
  · unfold runnerEvents
    exact List.getLast?_concat _
  · intro e he
    have : e.seq ∈ (runnerEvents jobID lines waitOk).map (fun e => e.seq) :=
      List.mem_map_of_mem (fun e => e.seq) he
    rw [runnerEvents_map_seq] at this
    have := List.mem_range'.mp this
    omega
  · unfold runnerEvents
    rw [List.dropLast_concat]
    exact hnotfin
  · unfold runnerEvents
    rw [List.filter_append]
    have hfin : List.filter (fun e => e.stream == "stdout")
        [runnerFinalEvent jobID lines.length waitOk] = [] := by
      simp [runnerFinalEvent]
    rw [hfin, List.append_nil]
    have hmain := interleave_filter_stream jobID "stdout" h 0
      (tagStream_fst "stdout" stdoutLines) (by
        intro y hy
        rcases List.mem_map.mp hy with ⟨l, _, rfl⟩
        show ("stderr" : String) ≠ "stdout"
        decide)
    rw [hmain]
    simp [tagStream, List.map_map]
  · unfold runnerEvents
    rw [List.filter_append]
    have hfin : List.filter (fun e => e.stream == "stderr")
        [runnerFinalEvent jobID lines.length waitOk] = [] := by
      simp [runnerFinalEvent]
    rw [hfin, List.append_nil]
    have hmain := interleave_filter_stream jobID "stderr"
      (interleaving_flip h) 0 (tagStream_fst "stderr" stderrLines) (by
        intro y hy
        rcases List.mem_map.mp hy with ⟨l, _, rfl⟩
        show ("stdout" : String) ≠ "stderr"
        decide)
    rw [hmain]
    simp [tagStream, List.map_map]

/-- C3: in every reachable dispatcher state, each session's worker
invocations follow its enqueue order (`enqueued = started ++ queue`,
so `started` is a prefix of `enqueued`); at most one job per session is
running and the invocation history is the return history plus that job
— hence whenever a later-enqueued job of a session has been started,
every earlier one has already finished, and finished jobs agree
positionally with the enqueue order; and across all sessions at most
`maxConcurrent` workers run at once. -/
theorem dispatcher_fifo_and_concurrency_cap (maxC : Nat) (s : DState)
    (h : DReach maxC s) :
    (∀ k, s.enqueued k = s.started k ++ s.queues k) ∧
    (∀ k, (runningFor s.active k).length ≤ 1 ∧
      s.started k = s.finished k ++ runningFor s.active k) ∧
    s.active.length ≤ maxC ∧
    (∀ k i j, i < j → j < (s.started k).length →
      i < (s.finished k).length ∧
        (s.finished k)[i]? = (s.enqueued k)[i]?) := by
  obtain ⟨hcap, _, hfifo, hsf, hone⟩ := DReach_inv h
  refine ⟨hfifo, fun k => ⟨hone k, hsf k⟩, hcap, ?_⟩
  intro k i j hij hj
  have hlen : (s.started k).length
      = (s.finished k).length + (runningFor s.active k).length := by
    rw [hsf k]
    simp
  have hi : i < (s.finished k).length := by
    have := hone k
    omega
  constructor
  · exact hi
  · have h1 : (s.finished k)[i]? = (s.started k)[i]? := by
      rw [hsf k]
      exact (List.getElem?_append_left hi).symm
    have h2 : (s.started k)[i]? = (s.enqueued k)[i]? := by
      rw [hfifo k]
      have hi2 : i < (s.started k).length := by omega
      exact (List.getElem?_append_left hi2).symm
    rw [h1, h2]

/-- Witness for `dispatcher_fifo_and_concurrency_cap`: the reachable
state after enqueueing and picking up one job under `maxConcurrent =
2`. -/
theorem dispatcher_fifo_and_concurrency_cap_witness :
    (DState.init.active.length ≤ 2) ∧
    (∀ k, DState.init.enqueued k
      = DState.init.started k ++ DState.init.queues k) := by
  have h := dispatcher_fifo_and_concurrency_cap 2 DState.init DReach.init
  exact ⟨h.2.2.1, h.1⟩

theorem string_data_inj {a b : String} (h : a.data = b.data) : a = b := by
  cases a
  cases b
  exact congrArg String.mk h

theorem string_data_append (a b : String) :
    (a ++ b).data = a.data ++ b.data := rfl

/-- Splitting at a separator character is unambiguous when the text
left of the separator is separator-free. -/
theorem sep_split_unique :
    ∀ (a1 : List Char) (a2 r1 r2 : List Char), ':' ∉ a1 → ':' ∉ a2 →
      a1 ++ ':' :: r1 = a2 ++ ':' :: r2 → a1 = a2 ∧ r1 = r2 := by
  intro a1
  induction a1 with
  | nil =>
    intro a2 r1 r2 _ h2 heq
    cases a2 with
    | nil => simpa using heq
    | cons c t =>
      simp only [List.nil_append, List.cons_append, List.cons.injEq] at heq
      exact absurd (heq.1 ▸ List.mem_cons_self c t) h2
  | cons c t ih =>
    intro a2 r1 r2 h1 h2 heq
    cases a2 with
    | nil =>
      simp only [List.nil_append, List.cons_append, List.cons.injEq] at heq
      exact absurd (heq.1 ▸ List.mem_cons_self c t) h1
    | cons c' t' =>
      simp only [List.cons_append, List.cons.injEq] at heq
      obtain ⟨hc, ht⟩ := heq
      have h1' : ':' ∉ t := fun hm => h1 (List.mem_cons_of_mem c hm)
      have h2' : ':' ∉ t' := fun hm => h2 (List.mem_cons_of_mem c' hm)
      obtain ⟨hteq, hreq⟩ := ih t' r1 r2 h1' h2' ht
      exact ⟨by rw [hc, hteq], hreq⟩

theorem sessionKey_str_data (k : SessionKey) :
    k.str.data = if k.threadID = ""
      then k.platform.data ++ ':' :: k.chatID.data
      else k.platform.data ++ ':'
        :: (k.chatID.data ++ ':' :: k.threadID.data) := by
  unfold SessionKey.str
  by_cases h : k.threadID = "" <;>
    simp [h, string_data_append, List.append_assoc]

theorem sessionKey_str_inj_colonFree (k1 k2 : SessionKey)
    (hp1 : ':' ∉ k1.platform.data) (hp2 : ':' ∉ k2.platform.data)
    (hc1 : ':' ∉ k1.chatID.data) (hc2 : ':' ∉ k2.chatID.data)
    (h : k1.str = k2.str) : k1 = k2 := by
  have hd : k1.str.data = k2.str.data := by rw [h]
  rw [sessionKey_str_data, sessionKey_str_data] at hd
  by_cases h1 : k1.threadID = "" <;> by_cases h2 : k2.threadID = "" <;>
    simp only [h1, h2, if_true, if_false] at hd
  · obtain ⟨hpe, hce⟩ := sep_split_unique _ _ _ _ hp1 hp2 hd
    obtain ⟨p1, c1, t1⟩ := k1
    obtain ⟨p2, c2, t2⟩ := k2
    simp only at hpe hce h1 h2
    simp [string_data_inj hpe, string_data_inj hce, h1, h2]
  · obtain ⟨hpe, hce⟩ := sep_split_unique _ _ _ _ hp1 hp2 hd
    exact absurd (hce ▸ List.mem_append_right k2.chatID.data
      (List.mem_cons_self ':' k2.threadID.data)) hc1
  · obtain ⟨hpe, hce⟩ := sep_split_unique _ _ _ _ hp1 hp2 hd
    exact absurd (hce.symm ▸ List.mem_append_right k1.chatID.data
      (List.mem_cons_self ':' k1.threadID.data)) hc2
  · obtain ⟨hpe, hrest⟩ := sep_split_unique _ _ _ _ hp1 hp2 hd
    obtain ⟨hce, hte⟩ := sep_split_unique _ _ _ _ hc1 hc2 hrest
    obtain ⟨p1, c1, t1⟩ := k1
    obtain ⟨p2, c2, t2⟩ := k2
    simp only at hpe hce hte
    simp [string_data_inj hpe, string_data_inj hce, string_data_inj hte]

/-- C10 counterexample: `SessionKey.String` is not injective on the
full `SessionKey` type — a chat id containing `:` collides with a
thread-carrying key: `(telegram, "1:2", "")` and `(telegram, "1", "2")`
both serialize to `telegram:1:2`. -/
theorem sessionKey_str_collision :
    (⟨"telegram", "1:2", ""⟩ : SessionKey) ≠ (⟨"telegram", "1", "2"⟩ : SessionKey) ∧
    (⟨"telegram", "1:2", ""⟩ : SessionKey).str
      = (⟨"telegram", "1", "2"⟩ : SessionKey).str := by
  constructor
  · decide
  · rfl

/-- C10 (amended): `SessionKey.String` is injective on keys whose
platform and chat id contain no `:` — which covers every key the
transports construct (`telegram` / `whatsapp` with numeric chat ids) —
so two such keys that differ in platform, chat id, or thread id
serialize differently; full injectivity fails (see the collision
above). -/
theorem sessionKey_str_injective_on_colonFree (k1 k2 : SessionKey)
    (hp1 : ':' ∉ k1.platform.data) (hp2 : ':' ∉ k2.platform.data)
    (hc1 : ':' ∉ k1.chatID.data) (hc2 : ':' ∉ k2.chatID.data)
    (hne : k1 ≠ k2) : k1.str ≠ k2.str := by
  intro h
  exact hne (sessionKey_str_inj_colonFree k1 k2 hp1 hp2 hc1 hc2 h)

/-- Witness for `sessionKey_str_injective_on_colonFree`: two keys
differing in thread id have distinct serializations. -/
theorem sessionKey_str_injective_on_colonFree_witness :
    (⟨"telegram", "7", ""⟩ : SessionKey).str
      ≠ (⟨"telegram", "7", "1001"⟩ : SessionKey).str :=
  sessionKey_str_injective_on_colonFree ⟨"telegram", "7", ""⟩
    ⟨"telegram", "7", "1001"⟩ (by decide) (by decide) (by decide) (by decide)
    (by decide)

/-- Witness for `runner_event_stream_invariants`: a run with one stdout
line and a failed `Wait`. -/
theorem runner_event_stream_invariants_witness :
    ((runnerEvents "job1" [("stdout", "a")] false).filter
        (fun e => e.isFinal)).length = 1 ∧
    (runnerEvents "job1" [("stdout", "a")] false).map (fun e => e.seq)
        = List.range' 1 2 := by
  have h := runner_event_stream_invariants "job1" ["a"] []
    [("stdout", "a")] false (by
      show Interleaving (tagStream "stdout" ["a"]) (tagStream "stderr" []) _
      have h1 : tagStream "stdout" ["a"] = [("stdout", "a")] := rfl
      have h2 : tagStream "stderr" [] = [] := rfl
      rw [h1, h2]
      exact Interleaving.left Interleaving.nil)
  exact ⟨h.2.1, h.1⟩

end Chatcode
